import Mathlib

/-!
Verification of the catalog search pipeline implemented in `src/app.py`
(query normalization, nearest-neighbor candidate retrieval, lexical scoring,
score fusion, threshold/top-k selection).

Python strings are modelled as lists of characters and all float arithmetic is
carried out exactly over `ℚ`.  The two external collaborators that `app.py`
calls — the sentence encoder composed with the FAISS index search, and the
fuzzywuzzy ratio — are modelled as deterministic oracle fields of `SearchEnv`;
their numeric contracts appear as explicit hypotheses of the theorems.
-/

/-- Python strings, modelled as lists of characters. -/
abbrev PyStr := List Char

/-- The whitespace characters recognized by Python `str.split()` (ASCII range). -/
def pyIsSpace (c : Char) : Bool :=
  c = ' ' || c = '\t' || c = '\n' || c = '\r' || c = '\x0b' || c = '\x0c'

/-- Python `str.lower()`, character by character (ASCII letters, matching
`Char.toLower`). -/
def pyLower (s : PyStr) : PyStr := s.map Char.toLower

/-- Helper for `pyWords`: scans the string, accumulating the current
in-progress word in reverse in `cur`; whitespace runs end words and empty
pieces are dropped, exactly as Python `str.split()` with no argument does. -/
def splitWsAux : List Char → List Char → List PyStr
  | [], cur => if cur = [] then [] else [cur.reverse]
  | c :: cs, cur =>
    if pyIsSpace c then
      if cur = [] then splitWsAux cs [] else cur.reverse :: splitWsAux cs []
    else splitWsAux cs (c :: cur)

/-- Python `s.split()`: the whitespace-delimited token list of a string. -/
def pyWords (s : PyStr) : List PyStr := splitWsAux s []

/-- Python `" ".join(ws)`: interleave the words with single spaces. -/
def joinWords : List PyStr → PyStr
  | [] => []
  | [w] => w
  | w :: v :: ws => w ++ ' ' :: joinWords (v :: ws)

/-- The stop-word set of `src/app.py` line 51. -/
def stop_words : List PyStr :=
  ["the", "a", "an", "of", "and", "in", "for", "on", "with", "to"].map
    (fun w => w.toList)

/-- `src/app.py` lines 49-54 (`preprocess_query`): lowercase, split on
whitespace, drop stop words, rejoin the survivors with single spaces. -/
def preprocess_query (query : PyStr) : PyStr :=
  joinWords ((pyWords (pyLower query)).filter (fun word => !stop_words.contains word))

/-- Python substring containment `needle in hay` for strings.  Note that in
Python the empty string is a substring of every string. -/
def pyContains (hay needle : PyStr) : Bool :=
  hay.tails.any (fun t => needle.isPrefixOf t)

/-- Modelled from the spec: `fuzz.token_set_ratio` comes from the external
fuzzywuzzy library, which is not part of this repository.  Spec §4.4 specifies
it as a symmetric, order- and duplicate-insensitive token-set overlap
similarity on a 0-100 scale ("standard token-set overlap ratio family"), and
the scorer returns 0 when either processed input is empty.  We model it as the
Sørensen-Dice overlap of the two whitespace-token sets, scaled to 0-100. -/
def tokenSetRatio (a b : PyStr) : ℚ :=
  let ta := (pyWords a).dedup
  let tb := (pyWords b).dedup
  if ta = [] ∨ tb = [] then 0
  else 100 * (2 * ((ta.filter (fun w => tb.contains w)).length : ℚ)) / (ta.length + tb.length)

/-- The ambient state of `src/app.py`: the cached product-name list, the
external fuzzy scorer, and the composition of the external sentence encoder
with the FAISS index search (`faiss_index.search(model.encode([qc]), k)`),
modelled as a deterministic oracle sending the normalized query and the
requested pool size `k` to the list of (catalog index, L2 distance) candidate
pairs, in the distance-ascending order FAISS produces. -/
structure SearchEnv where
  products : List PyStr
  fuzzyRatio : PyStr → PyStr → ℚ
  nn : PyStr → ℕ → List (ℕ × ℚ)

/-- `src/app.py` lines 56-63 (`get_fuzzy_scores`): fuzzy ratios divided by 100,
and the substring boosts, for the candidate catalog indices. -/
def get_fuzzy_scores (env : SearchEnv) (query_clean : PyStr) (indices : List ℕ) :
    List ℚ × List ℚ :=
  (indices.map (fun i => env.fuzzyRatio query_clean (pyLower (env.products.getD i [])) / 100),
   indices.map (fun i => if pyContains (pyLower (env.products.getD i [])) query_clean
     then (1 : ℚ) else 0))

/-- `src/app.py` line 71: the candidate pool
`faiss_index.search(query_embedding, top_k * 3)`, as (index, distance) pairs. -/
def candidatesOf (env : SearchEnv) (query : PyStr) (top_k : ℕ) : List (ℕ × ℚ) :=
  env.nn (preprocess_query query) (top_k * 3)

/-- `src/app.py` lines 72-84: `ai_scores = 1 - distances`, the fuzzy scores,
the startswith and substring boosts, fused elementwise with weights
0.4 / 0.4 / 0.1 / 0.1. -/
def finalScores (env : SearchEnv) (query : PyStr) (top_k : ℕ) : List ℚ :=
  let query_clean := preprocess_query query
  let cands := candidatesOf env query top_k
  let indices := cands.map Prod.fst
  let ai_scores := cands.map (fun c => 1 - c.2)
  let fz := get_fuzzy_scores env query_clean indices
  let startswith_boost :=
    indices.map (fun i => if query_clean.isPrefixOf (pyLower (env.products.getD i []))
      then (1 : ℚ) else 0)
  List.zipWith (· + ·)
    (List.zipWith (fun a f => 0.4 * a + 0.4 * f) ai_scores fz.1)
    (List.zipWith (fun p s => 0.1 * p + 0.1 * s) startswith_boost fz.2)

/-- `src/app.py` lines 67-91 (`search_products`): keep the candidate positions
whose final score exceeds 0.1, order them by descending final score, truncate
to `top_k`, and return the (product name, final score) pairs. -/
def search_products (env : SearchEnv) (query : PyStr) (top_k : ℕ) : List (PyStr × ℚ) :=
  let cands := candidatesOf env query top_k
  let indices := cands.map Prod.fst
  let fs := finalScores env query top_k
  let score := fun j => fs.getD j 0
  let filtered_indices := (List.range fs.length).filter (fun j => decide (score j > 0.1))
  let top_k_indices :=
    (List.insertionSort (fun a b => score a ≥ score b) filtered_indices).take top_k
  top_k_indices.map (fun i => (env.products.getD (indices.getD i 0) [], score i))

example : preprocess_query ("The Green  Tea".toList) = "green tea".toList := by decide

example : preprocess_query ("the of AND".toList) = [] := by decide

example : pyContains ("abc".toList) [] = true := by decide

theorem tokenSetRatio_eval (a b : PyStr) (ta tb tc : List PyStr)
    (h1 : (pyWords a).dedup = ta) (h2 : (pyWords b).dedup = tb)
    (h3 : ta.filter (fun w => tb.contains w) = tc) (hne : ¬(ta = [] ∨ tb = [])) :
    tokenSetRatio a b = 100 * (2 * (tc.length : ℚ)) / ((ta.length : ℚ) + (tb.length : ℚ)) := by
  simp only [tokenSetRatio, h1, h2, h3, if_neg hne]

example : tokenSetRatio ("green tea".toList) ("green tea 250g".toList) = 80 := by
  rw [tokenSetRatio_eval ("green tea".toList) ("green tea 250g".toList)
    ["green".toList, "tea".toList] ["green".toList, "tea".toList, "250g".toList]
    ["green".toList, "tea".toList] (by decide) (by decide) (by decide) (by decide)]
  norm_num

/-! ### Facts about the string primitives -/

theorem toNat_ofNat_lt (n : ℕ) (h : n < 55296) : (Char.ofNat n).toNat = n := by
  have hv : n.isValidChar := Or.inl h
  rw [Char.ofNat, dif_pos hv]
  rfl

theorem toLower_eq_self (d : Char) (hd : ¬(d.toNat ≥ 65 ∧ d.toNat ≤ 90)) :
    Char.toLower d = d := by
  simp only [Char.toLower]
  rw [if_neg hd]

theorem toLower_toLower (c : Char) : Char.toLower (Char.toLower c) = Char.toLower c := by
  by_cases h : c.toNat ≥ 65 ∧ c.toNat ≤ 90
  · have he : Char.toLower c = Char.ofNat (c.toNat + 32) := by
      simp only [Char.toLower]
      rw [if_pos h]
    have h1 : (Char.ofNat (c.toNat + 32)).toNat = c.toNat + 32 :=
      toNat_ofNat_lt _ (by omega)
    rw [he]
    apply toLower_eq_self
    rw [h1]
    omega
  · rw [toLower_eq_self c h, toLower_eq_self c h]

theorem toLower_space : Char.toLower ' ' = ' ' := by decide

theorem splitWsAux_append (w : List Char) (hw : ∀ c ∈ w, pyIsSpace c = false) :
    ∀ (l cur : List Char), splitWsAux (w ++ l) cur = splitWsAux l (w.reverse ++ cur) := by
  induction w with
  | nil => intro l cur; simp
  | cons c cs ih =>
    intro l cur
    have hc : pyIsSpace c = false := hw c (by simp)
    have hcs : ∀ x ∈ cs, pyIsSpace x = false := fun x hx => hw x (by simp [hx])
    simp only [List.cons_append, splitWsAux, hc, Bool.false_eq_true, if_false,
      List.append_eq]
    rw [ih hcs l (c :: cur)]
    simp

theorem splitWsAux_space (l cur : List Char) :
    splitWsAux (' ' :: l) cur =
      if cur = [] then splitWsAux l [] else cur.reverse :: splitWsAux l [] := by
  simp [splitWsAux, pyIsSpace]

theorem pyWords_of_word (w : List Char) (hw : ∀ c ∈ w, pyIsSpace c = false) :
    pyWords w = if w = [] then [] else [w] := by
  have h := splitWsAux_append w hw [] []
  rw [List.append_nil] at h
  rw [pyWords, h]
  simp [splitWsAux]

theorem pyWords_joinWords (ws : List PyStr)
    (h : ∀ w ∈ ws, w ≠ [] ∧ ∀ c ∈ w, pyIsSpace c = false) :
    pyWords (joinWords ws) = ws := by
  induction ws with
  | nil => rfl
  | cons w vs ih =>
    cases vs with
    | nil =>
      obtain ⟨hne, hsp⟩ := h w (by simp)
      rw [joinWords, pyWords_of_word w hsp, if_neg hne]
    | cons v vs' =>
      obtain ⟨hne, hsp⟩ := h w (by simp)
      have hrest : ∀ u ∈ v :: vs', u ≠ [] ∧ ∀ c ∈ u, pyIsSpace c = false :=
        fun u hu => h u (by simp [hu])
      rw [joinWords, pyWords, splitWsAux_append w hsp, List.append_nil,
        splitWsAux_space, if_neg (by simp [hne])]
      rw [List.reverse_reverse]
      exact congrArg (w :: ·) (ih hrest)

theorem splitWsAux_wf : ∀ (s cur : List Char), (∀ c ∈ cur, pyIsSpace c = false) →
    ∀ w ∈ splitWsAux s cur, w ≠ [] ∧ ∀ c ∈ w, pyIsSpace c = false := by
  intro s
  induction s with
  | nil =>
    intro cur hcur w hw
    by_cases hc : cur = []
    · simp [splitWsAux, hc] at hw
    · simp only [splitWsAux, if_neg hc, List.mem_singleton] at hw
      subst hw
      refine ⟨by simp [hc], ?_⟩
      intro c hc'
      exact hcur c (List.mem_reverse.mp hc')
  | cons c cs ih =>
    intro cur hcur w hw
    by_cases hsp : pyIsSpace c = true
    · simp only [splitWsAux, hsp, if_true] at hw
      by_cases hc : cur = []
      · rw [if_pos hc] at hw
        exact ih [] (by simp) w hw
      · rw [if_neg hc] at hw
        rcases List.mem_cons.mp hw with h1 | h1
        · subst h1
          refine ⟨by simp [hc], ?_⟩
          intro x hx
          exact hcur x (List.mem_reverse.mp hx)
        · exact ih [] (by simp) w h1
    · have hsp' : pyIsSpace c = false := by
        cases hpc : pyIsSpace c
        · rfl
        · exact absurd hpc hsp
      simp only [splitWsAux, hsp', Bool.false_eq_true, if_false] at hw
      refine ih (c :: cur) ?_ w hw
      intro x hx
      rcases List.mem_cons.mp hx with h1 | h1
      · subst h1; exact hsp'
      · exact hcur x h1

theorem pyWords_wf (s : PyStr) :
    ∀ w ∈ pyWords s, w ≠ [] ∧ ∀ c ∈ w, pyIsSpace c = false :=
  splitWsAux_wf s [] (by simp)

theorem splitWsAux_chars : ∀ (s cur : List Char), ∀ w ∈ splitWsAux s cur,
    ∀ c ∈ w, c ∈ s ∨ c ∈ cur := by
  intro s
  induction s with
  | nil =>
    intro cur w hw c hc
    by_cases h : cur = []
    · simp [splitWsAux, h] at hw
    · simp only [splitWsAux, if_neg h, List.mem_singleton] at hw
      subst hw
      exact Or.inr (List.mem_reverse.mp hc)
  | cons a cs ih =>
    intro cur w hw c hc
    by_cases hsp : pyIsSpace a = true
    · simp only [splitWsAux, hsp, if_true] at hw
      by_cases h : cur = []
      · rw [if_pos h] at hw
        rcases ih [] w hw c hc with h1 | h1
        · exact Or.inl (by simp [h1])
        · simp at h1
      · rw [if_neg h] at hw
        rcases List.mem_cons.mp hw with h1 | h1
        · subst h1
          exact Or.inr (List.mem_reverse.mp hc)
        · rcases ih [] w h1 c hc with h2 | h2
          · exact Or.inl (by simp [h2])
          · simp at h2
    · have hsp' : pyIsSpace a = false := by
        cases hpc : pyIsSpace a
        · rfl
        · exact absurd hpc hsp
      simp only [splitWsAux, hsp', Bool.false_eq_true, if_false] at hw
      rcases ih (a :: cur) w hw c hc with h1 | h1
      · exact Or.inl (by simp [h1])
      · rcases List.mem_cons.mp h1 with h2 | h2
        · exact Or.inl (by simp [h2])
        · exact Or.inr h2

theorem pyWords_chars (s : PyStr) (w : PyStr) (hw : w ∈ pyWords s) :
    ∀ c ∈ w, c ∈ s := by
  intro c hc
  rcases splitWsAux_chars s [] w hw c hc with h | h
  · exact h
  · simp at h

theorem joinWords_ne_nil (ws : List PyStr) (hne : ws ≠ [])
    (h : ∀ w ∈ ws, w ≠ []) : joinWords ws ≠ [] := by
  cases ws with
  | nil => exact absurd rfl hne
  | cons w vs =>
    cases vs with
    | nil => exact h w (by simp)
    | cons v vs' =>
      rw [joinWords]
      intro hcontra
      rcases List.append_eq_nil.mp hcontra with ⟨h1, h2⟩
      exact List.cons_ne_nil _ _ h2

theorem pyLower_joinWords (ws : List PyStr) :
    pyLower (joinWords ws) = joinWords (ws.map pyLower) := by
  induction ws with
  | nil => rfl
  | cons w vs ih =>
    cases vs with
    | nil => rfl
    | cons v vs' =>
      show pyLower (w ++ ' ' :: joinWords (v :: vs')) =
          pyLower w ++ ' ' :: joinWords ((v :: vs').map pyLower)
      simp only [pyLower, List.map_append, List.map_cons, toLower_space] at ih ⊢
      rw [ih]

theorem filtered_words_wf (s : PyStr) :
    ∀ w ∈ (pyWords (pyLower s)).filter (fun word => !stop_words.contains word),
      w ≠ [] ∧ ∀ c ∈ w, pyIsSpace c = false :=
  fun w hw => pyWords_wf (pyLower s) w (List.mem_of_mem_filter hw)

theorem preprocess_words (s : PyStr) :
    pyWords (preprocess_query s) =
      (pyWords (pyLower s)).filter (fun word => !stop_words.contains word) :=
  pyWords_joinWords _ (filtered_words_wf s)

theorem pyLower_word_of_lowered (s : PyStr) (w : PyStr)
    (hw : w ∈ pyWords (pyLower s)) : pyLower w = w := by
  have hchar : ∀ c ∈ w, Char.toLower c = c := by
    intro c hc
    have hmem : c ∈ pyLower s := pyWords_chars (pyLower s) w hw c hc
    rcases List.mem_map.mp hmem with ⟨c', _, hc'⟩
    rw [← hc']
    exact toLower_toLower c'
  calc pyLower w = w.map id := List.map_congr_left (fun c hc => hchar c hc)
  _ = w := List.map_id w

theorem pyLower_preprocess (s : PyStr) :
    pyLower (preprocess_query s) = preprocess_query s := by
  rw [preprocess_query, pyLower_joinWords]
  congr 1
  calc ((pyWords (pyLower s)).filter (fun word => !stop_words.contains word)).map pyLower
      = ((pyWords (pyLower s)).filter (fun word => !stop_words.contains word)).map id :=
        List.map_congr_left (fun w hw =>
          pyLower_word_of_lowered s w (List.mem_of_mem_filter hw))
  _ = _ := List.map_id _

/-- C9: query normalization is idempotent — applying `preprocess_query` to an
already-normalized string leaves it unchanged. -/
theorem preprocess_query_idempotent (s : PyStr) :
    preprocess_query (preprocess_query s) = preprocess_query s := by
  show joinWords _ = _
  rw [pyLower_preprocess, preprocess_words]
  rw [List.filter_filter]
  simp only [Bool.and_self]
  rfl

/-- C6: `preprocess_query` is a pure total function on strings: its output
tokens are exactly the whitespace tokens of the lowercased input with the
enumerated stop words removed, the output is the single-space join of those
tokens, and if every token is a stop word the output is the empty string. -/
theorem preprocess_query_spec (s : PyStr) :
    pyWords (preprocess_query s) =
        (pyWords (pyLower s)).filter (fun word => !stop_words.contains word)
      ∧ preprocess_query s = joinWords (pyWords (preprocess_query s))
      ∧ stop_words = ["the", "a", "an", "of", "and", "in", "for", "on", "with", "to"].map
          (fun w => w.toList)
      ∧ ((∀ w ∈ pyWords (pyLower s), stop_words.contains w) → preprocess_query s = []) := by
  refine ⟨preprocess_words s, ?_, rfl, ?_⟩
  · rw [preprocess_words]
    rfl
  · intro hall
    rw [preprocess_query]
    have : (pyWords (pyLower s)).filter (fun word => !stop_words.contains word) = [] := by
      rw [List.filter_eq_nil_iff]
      intro w hw
      rw [Bool.not_eq_true', Bool.not_eq_false]
      exact hall w hw
    rw [this]
    rfl

/-- Closed instance of C6: a query made only of stop words normalizes to the
empty string, and a mixed-case query keeps exactly its non-stop-word tokens. -/
theorem preprocess_query_spec_witness :
    preprocess_query ("The of AND to".toList) = [] ∧
      pyWords (preprocess_query ("The Green  Tea".toList)) =
        (pyWords (pyLower ("The Green  Tea".toList))).filter
          (fun word => !stop_words.contains word) :=
  ⟨(preprocess_query_spec ("The of AND to".toList)).2.2.2 (by decide),
   (preprocess_query_spec ("The Green  Tea".toList)).1⟩

/-! ### Facts about the scoring pipeline -/

theorem zipWith_map_same {α β γ δ : Type} (h2 : β → γ → δ) (f : α → β) (g : α → γ)
    (l : List α) :
    List.zipWith h2 (l.map f) (l.map g) = l.map (fun x => h2 (f x) (g x)) := by
  induction l with
  | nil => rfl
  | cons a t ih => simp [ih]

/-- The per-candidate reading of `src/app.py` lines 78-84: the fused score of a
single (catalog index, distance) candidate pair. -/
def candScore (env : SearchEnv) (qc : PyStr) (c : ℕ × ℚ) : ℚ :=
  (0.4 * (1 - c.2) + 0.4 * (env.fuzzyRatio qc (pyLower (env.products.getD c.1 [])) / 100))
  + (0.1 * (if qc.isPrefixOf (pyLower (env.products.getD c.1 [])) then (1 : ℚ) else 0)
     + 0.1 * (if pyContains (pyLower (env.products.getD c.1 [])) qc then (1 : ℚ) else 0))

theorem finalScores_eq_map (env : SearchEnv) (query : PyStr) (top_k : ℕ) :
    finalScores env query top_k =
      (candidatesOf env query top_k).map (candScore env (preprocess_query query)) := by
  simp only [finalScores, get_fuzzy_scores, List.map_map]
  rw [zipWith_map_same, zipWith_map_same, zipWith_map_same]
  rfl

theorem finalScores_length (env : SearchEnv) (query : PyStr) (top_k : ℕ) :
    (finalScores env query top_k).length = (candidatesOf env query top_k).length := by
  rw [finalScores_eq_map, List.length_map]

theorem finalScores_getD (env : SearchEnv) (query : PyStr) (top_k : ℕ) (j : ℕ)
    (h : j < (candidatesOf env query top_k).length) :
    (finalScores env query top_k).getD j 0 =
      candScore env (preprocess_query query) ((candidatesOf env query top_k).get ⟨j, h⟩) := by
  rw [finalScores_eq_map, List.getD_eq_get?, List.get?_map, List.get?_eq_get h]
  rfl

theorem mem_search_products (env : SearchEnv) (query : PyStr) (top_k : ℕ) (p : PyStr × ℚ)
    (hp : p ∈ search_products env query top_k) :
    ∃ j, ∃ h : j < (candidatesOf env query top_k).length,
      (finalScores env query top_k).getD j 0 > 0.1 ∧
      p = (env.products.getD (((candidatesOf env query top_k).get ⟨j, h⟩).1) [],
           (finalScores env query top_k).getD j 0) := by
  simp only [search_products] at hp
  rcases List.mem_map.mp hp with ⟨j, hj, hpj⟩
  have hj2 := List.take_subset top_k _ hj
  have hj3 := (List.perm_insertionSort _ _).mem_iff.mp hj2
  obtain ⟨hjr, hjd⟩ := List.mem_filter.mp hj3
  have hjlen : j < (finalScores env query top_k).length := List.mem_range.mp hjr
  have hjc : j < (candidatesOf env query top_k).length := by
    rw [finalScores_length] at hjlen
    exact hjlen
  refine ⟨j, hjc, of_decide_eq_true hjd, ?_⟩
  rw [← hpj]
  have hidx : ((candidatesOf env query top_k).map Prod.fst).getD j 0 =
      ((candidatesOf env query top_k).get ⟨j, hjc⟩).1 := by
    rw [List.getD_eq_get?, List.get?_map, List.get?_eq_get hjc]
    rfl
  rw [hidx]

theorem candScore_le_one (env : SearchEnv) (qc : PyStr) (c : ℕ × ℚ)
    (hub : env.fuzzyRatio qc (pyLower (env.products.getD c.1 [])) ≤ 100)
    (hd : 0 ≤ c.2) : candScore env qc c ≤ 1 := by
  unfold candScore
  have h1 : (1 : ℚ) - c.2 ≤ 1 := by linarith
  have h2 : env.fuzzyRatio qc (pyLower (env.products.getD c.1 [])) / 100 ≤ 1 := by
    rw [div_le_one (by norm_num : (0:ℚ) < 100)]
    exact hub
  have h3 : (if qc.isPrefixOf (pyLower (env.products.getD c.1 [])) then (1 : ℚ) else 0) ≤ 1 := by
    split <;> norm_num
  have h4 : (if pyContains (pyLower (env.products.getD c.1 [])) qc then (1 : ℚ) else 0) ≤ 1 := by
    split <;> norm_num
  linarith

/-- C3: every (name, score) pair returned by the search has 0.1 < score — a
candidate whose final score is at most 0.1 is never returned — and, assuming
the fuzzy scorer stays within its 0-100 scale and the index reports
nonnegative distances, score ≤ 1. -/
theorem search_scores_in_unit (env : SearchEnv) (query : PyStr) (top_k : ℕ) :
    (∀ p ∈ search_products env query top_k, 0.1 < p.2) ∧
      ((∀ a b, env.fuzzyRatio a b ≤ 100) → (∀ qc k, ∀ c ∈ env.nn qc k, 0 ≤ c.2) →
        ∀ p ∈ search_products env query top_k, p.2 ≤ 1) := by
  constructor
  · intro p hp
    obtain ⟨j, hj, hscore, hpe⟩ := mem_search_products env query top_k p hp
    rw [hpe]
    exact hscore
  · intro hfz hnn p hp
    obtain ⟨j, hj, hscore, hpe⟩ := mem_search_products env query top_k p hp
    rw [hpe]
    show (finalScores env query top_k).getD j 0 ≤ 1
    rw [finalScores_getD env query top_k j hj]
    refine candScore_le_one env _ _ (hfz _ _) ?_
    exact hnn _ _ _ (List.get_mem _ _ _)

/-- A concrete one-item environment used by the closed witness instances: one
catalog item "green tea", a constant fuzzy ratio of 50, and an index oracle
that returns the single item at distance 0 (respecting the requested size). -/
def envDemo : SearchEnv :=
  ⟨["green tea".toList], fun _ _ => 50, fun _ k => [((0 : ℕ), (0 : ℚ))].take k⟩

theorem envDemo_candidates :
    candidatesOf envDemo ("green tea".toList) 10 = [(0, 0)] := rfl

theorem envDemo_finalScores :
    finalScores envDemo ("green tea".toList) 10 = [4/5] := by
  rw [finalScores_eq_map, envDemo_candidates]
  have hql : preprocess_query ("green tea".toList) = "green tea".toList := by decide
  have hpl : pyLower (envDemo.products.getD 0 []) = "green tea".toList := by decide
  have hpre : ("green tea".toList).isPrefixOf ("green tea".toList) = true := by decide
  have hsub : pyContains ("green tea".toList) ("green tea".toList) = true := by decide
  simp only [List.map_cons, List.map_nil, candScore, hql, hpl, hpre, hsub, if_true]
  norm_num [envDemo]

theorem envDemo_search :
    search_products envDemo ("green tea".toList) 10 = [("green tea".toList, 4/5)] := by
  simp only [search_products, envDemo_candidates, envDemo_finalScores]
  norm_num [envDemo, List.range_succ, List.filter, List.insertionSort, List.orderedInsert,
    List.getD, List.get?]

/-- Closed instance of C3 at a concrete one-item environment. -/
theorem search_scores_in_unit_witness :
    0.1 < ((search_products envDemo ("green tea".toList) 10).getD 0 ([], 0)).2 ∧
      ((search_products envDemo ("green tea".toList) 10).getD 0 ([], 0)).2 ≤ 1 := by
  have hmem : ("green tea".toList, (4:ℚ)/5) ∈ search_products envDemo ("green tea".toList) 10 := by
    rw [envDemo_search]
    exact List.mem_singleton.mpr rfl
  have h1 := (search_scores_in_unit envDemo ("green tea".toList) 10).1 _ hmem
  have h2 := (search_scores_in_unit envDemo ("green tea".toList) 10).2
    (fun _ _ => by norm_num [envDemo])
    (fun _ k c hc => by
      have hs := List.take_subset k _ hc
      simp only [List.mem_singleton] at hs
      rw [hs])
    _ hmem
  rw [envDemo_search]
  exact ⟨by simpa using h1, by simpa using h2⟩

/-- C4: the final score of every candidate is exactly
0.4·ai + 0.4·fuzzy + 0.1·prefix-boost + 0.1·substring-boost, with
ai = 1 − distance. -/
theorem finalScore_formula (env : SearchEnv) (query : PyStr) (top_k : ℕ) (j : ℕ)
    (c : ℕ × ℚ) (h : (candidatesOf env query top_k).get? j = some c) :
    (finalScores env query top_k).get? j = some
      (0.4 * (1 - c.2)
        + 0.4 * (env.fuzzyRatio (preprocess_query query) (pyLower (env.products.getD c.1 [])) / 100)
        + 0.1 * (if (preprocess_query query).isPrefixOf (pyLower (env.products.getD c.1 []))
            then (1 : ℚ) else 0)
        + 0.1 * (if pyContains (pyLower (env.products.getD c.1 [])) (preprocess_query query)
            then (1 : ℚ) else 0)) := by
  rw [finalScores_eq_map, List.get?_map, h, Option.map_some']
  congr 1
  unfold candScore
  ring

/-- Closed instance of C4: in the demo environment the single candidate (index
0, distance 0) receives final score 0.4·1 + 0.4·0.5 + 0.1 + 0.1 = 4/5. -/
theorem finalScore_formula_witness :
    (candidatesOf envDemo ("green tea".toList) 10).get? 0 = some (0, 0) ∧
      (finalScores envDemo ("green tea".toList) 10).get? 0 = some (4/5) := by
  refine ⟨rfl, ?_⟩
  have h := finalScore_formula envDemo ("green tea".toList) 10 0 (0, 0) rfl
  rw [h]
  have hql : preprocess_query ("green tea".toList) = "green tea".toList := by decide
  have hpl : pyLower (envDemo.products.getD 0 []) = "green tea".toList := by decide
  have hpre : ("green tea".toList).isPrefixOf ("green tea".toList) = true := by decide
  have hsub : pyContains ("green tea".toList) ("green tea".toList) = true := by decide
  simp only [hql, hpl, hpre, hsub, if_true]
  norm_num [envDemo]

/-- C7: the result list never exceeds `top_k` elements, and if no candidate
clears the 0.1 threshold the result is the empty list rather than an error. -/
theorem search_length_le_and_empty (env : SearchEnv) (query : PyStr) (top_k : ℕ) :
    (search_products env query top_k).length ≤ top_k ∧
      ((∀ x ∈ finalScores env query top_k, x ≤ 0.1) →
        search_products env query top_k = []) := by
  constructor
  · simp only [search_products, List.length_map]
    rw [List.length_take]
    exact min_le_left _ _
  · intro hall
    simp only [search_products]
    have hfil : (List.range (finalScores env query top_k).length).filter
        (fun j => decide ((finalScores env query top_k).getD j 0 > 0.1)) = [] := by
      rw [List.filter_eq_nil_iff]
      intro j hj
      have hjlen := List.mem_range.mp hj
      have hmem : (finalScores env query top_k).getD j 0 ∈ finalScores env query top_k := by
        rw [List.getD_eq_get?, List.get?_eq_get hjlen]
        exact List.get_mem _ _ _
      simp only [decide_eq_true_eq]
      exact not_lt.mpr (hall _ hmem)
    rw [hfil]
    simp

/-- A concrete environment in which the only candidate scores below the
threshold: constant fuzzy ratio 0 and a candidate at distance 2, so the final
score is 0.4·(1 − 2) = −0.4. -/
def envLow : SearchEnv :=
  ⟨["green tea".toList], fun _ _ => 0, fun _ k => [((0 : ℕ), (2 : ℚ))].take k⟩

theorem envLow_finalScores :
    finalScores envLow ("night".toList) 10 = [-2/5] := by
  rw [finalScores_eq_map]
  have hc : candidatesOf envLow ("night".toList) 10 = [(0, 2)] := rfl
  rw [hc]
  have hql : preprocess_query ("night".toList) = "night".toList := by decide
  have hpl : pyLower (envLow.products.getD 0 []) = "green tea".toList := by decide
  have hpre : ("night".toList).isPrefixOf ("green tea".toList) = false := by decide
  have hsub : pyContains ("green tea".toList) ("night".toList) = false := by decide
  simp only [List.map_cons, List.map_nil, candScore, hql, hpl, hpre, hsub,
    Bool.false_eq_true, if_false]
  norm_num [envLow]

/-- Closed instance of C7: in `envLow` nothing clears the threshold and the
search returns the empty list, of length ≤ 10. -/
theorem search_length_le_and_empty_witness :
    (search_products envLow ("night".toList) 10).length ≤ 10 ∧
      search_products envLow ("night".toList) 10 = [] := by
  have h := search_length_le_and_empty envLow ("night".toList) 10
  refine ⟨h.1, h.2 ?_⟩
  intro x hx
  rw [envLow_finalScores] at hx
  simp only [List.mem_singleton] at hx
  rw [hx]
  norm_num

/-- C8: search is deterministic — the pipeline is a pure function of the
environment (catalog, encoder+index oracle, fuzzy oracle), the raw query and
top_k, so two runs on identical inputs return identical ordered output. -/
theorem search_products_deterministic (env₁ env₂ : SearchEnv) (q₁ q₂ : PyStr)
    (k₁ k₂ : ℕ) (henv : env₁ = env₂) (hq : q₁ = q₂) (hk : k₁ = k₂) :
    search_products env₁ q₁ k₁ = search_products env₂ q₂ k₂ := by
  subst henv
  subst hq
  subst hk
  rfl

/-- Closed instance of C8: two runs on the demo environment coincide. -/
theorem search_products_deterministic_witness :
    search_products envDemo ("green tea".toList) 10 =
      search_products envDemo ("green tea".toList) 10 :=
  search_products_deterministic envDemo envDemo ("green tea".toList)
    ("green tea".toList) 10 10 rfl rfl rfl

/-- C10: the candidate pool has at most 3·top_k entries, and every returned
(name, score) pair takes its name from one of those candidates — hence, when
the index oracle only emits valid catalog positions, from the catalog itself;
the search never fabricates a result outside the candidate pool. -/
theorem search_names_from_catalog (env : SearchEnv) (query : PyStr) (top_k : ℕ)
    (hvalid : ∀ qc k, ∀ c ∈ env.nn qc k, c.1 < env.products.length)
    (hlen : ∀ qc k, (env.nn qc k).length ≤ k) :
    (candidatesOf env query top_k).length ≤ 3 * top_k ∧
      ∀ p ∈ search_products env query top_k,
        ∃ c ∈ candidatesOf env query top_k,
          p.1 = env.products.getD c.1 [] ∧ p.1 ∈ env.products := by
  constructor
  · rw [candidatesOf]
    calc (env.nn (preprocess_query query) (top_k * 3)).length ≤ top_k * 3 := hlen _ _
    _ = 3 * top_k := Nat.mul_comm _ _
  · intro p hp
    obtain ⟨j, hj, _, hpe⟩ := mem_search_products env query top_k p hp
    refine ⟨(candidatesOf env query top_k).get ⟨j, hj⟩, List.get_mem _ _ _, ?_, ?_⟩
    · rw [hpe]
    · rw [hpe]
      have hlt : ((candidatesOf env query top_k).get ⟨j, hj⟩).1 < env.products.length :=
        hvalid _ _ _ (List.get_mem _ _ _)
      show env.products.getD _ [] ∈ env.products
      rw [List.getD_eq_get?, List.get?_eq_get hlt]
      exact List.get_mem _ _ _

/-- Closed instance of C10: the single result of the demo search is the demo
catalog's only name, drawn from the candidate pool. -/
theorem search_names_from_catalog_witness :
    ("green tea".toList, (4:ℚ)/5) ∈ search_products envDemo ("green tea".toList) 10 ∧
      ∃ c ∈ candidatesOf envDemo ("green tea".toList) 10,
        ("green tea".toList, (4:ℚ)/5).1 = envDemo.products.getD c.1 [] ∧
          ("green tea".toList, (4:ℚ)/5).1 ∈ envDemo.products := by
  have hmem : ("green tea".toList, (4:ℚ)/5) ∈ search_products envDemo ("green tea".toList) 10 := by
    rw [envDemo_search]
    exact List.mem_singleton.mpr rfl
  refine ⟨hmem, ?_⟩
  exact (search_names_from_catalog envDemo ("green tea".toList) 10
    (fun _ k c hc => by
      have h1 := List.take_subset k _ hc
      simp only [List.mem_singleton] at h1
      rw [h1]
      norm_num [envDemo])
    (fun _ k => by
      have := List.length_take k [((0 : ℕ), (0 : ℚ))]
      simp only [envDemo]
      rw [List.length_take]
      exact min_le_left _ _)).2
    ("green tea".toList, (4:ℚ)/5) hmem

/-! ### The empty-query boost behavior (claim C1) -/

theorem tokenSetRatio_nil_left (b : PyStr) : tokenSetRatio [] b = 0 := by
  simp [tokenSetRatio, pyWords, splitWsAux]

/-- A concrete environment for exercising the all-stop-word query: one catalog
item "green tea", the modelled fuzzy scorer, one candidate at distance 1/2. -/
def envC1 : SearchEnv :=
  ⟨["green tea".toList], tokenSetRatio, fun _ k => [((0 : ℕ), (1 : ℚ)/2)].take k⟩

/-- C1 is violated by the code: the raw query "the" normalizes to the empty
string, and then the code assigns substring boost 1.0 and startswith boost 1.0
to every candidate — in Python the empty string is a substring and a prefix of
every string — so the final score of the candidate at distance 1/2 is
0.4·(1/2) + 0.4·0 + 0.1·1 + 0.1·1 = 2/5, including the 0.2 of boost mass that
the spec says must be 0. -/
theorem empty_query_boosts_are_one :
    preprocess_query ("the".toList) = []
      ∧ (get_fuzzy_scores envC1 (preprocess_query ("the".toList)) [0]).2 = [(1 : ℚ)]
      ∧ (if (preprocess_query ("the".toList)).isPrefixOf (pyLower (envC1.products.getD 0 []))
          then (1 : ℚ) else 0) = 1
      ∧ finalScores envC1 ("the".toList) 10 = [2/5] := by
  have hq : preprocess_query ("the".toList) = [] := by decide
  have hpl : pyLower (envC1.products.getD 0 []) = "green tea".toList := by decide
  have hpre : ([] : PyStr).isPrefixOf ("green tea".toList) = true := by decide
  have hsub : pyContains ("green tea".toList) ([] : PyStr) = true := by decide
  have hts : tokenSetRatio [] ("green tea".toList) = 0 := tokenSetRatio_nil_left _
  refine ⟨hq, ?_, ?_, ?_⟩
  · simp only [get_fuzzy_scores, List.map_cons, List.map_nil]
    rw [hq, hpl, hsub]
    simp
  · rw [hq, hpl, hpre]
    simp
  · rw [finalScores_eq_map]
    have hc : candidatesOf envC1 ("the".toList) 10 = [(0, 1/2)] := rfl
    rw [hc]
    simp only [List.map_cons, List.map_nil, candScore, hq, hpl, hpre, hsub, if_true]
    norm_num [envC1, tokenSetRatio_nil_left]

/-! ### The exact-match property (claim C5) -/

theorem tokenSetRatio_self (s : PyStr) (h : pyWords s ≠ []) : tokenSetRatio s s = 100 := by
  have hd : (pyWords s).dedup ≠ [] := by
    intro hc
    apply h
    rwa [List.dedup_eq_nil] at hc
  have hfil : ((pyWords s).dedup.filter (fun w => (pyWords s).dedup.contains w))
      = (pyWords s).dedup :=
    List.filter_eq_self.mpr (fun w hw => List.elem_eq_true_of_mem hw)
  have hL : 0 < ((pyWords s).dedup.length : ℚ) := by
    have := List.length_pos.mpr hd
    exact_mod_cast this
  rw [tokenSetRatio_eval s s ((pyWords s).dedup) ((pyWords s).dedup) ((pyWords s).dedup)
    rfl rfl hfil (by simp [hd])]
  rw [div_eq_iff (by linarith)]
  ring

theorem tokenSetRatio_le_100 (a b : PyStr) : tokenSetRatio a b ≤ 100 := by
  simp only [tokenSetRatio]
  split
  · norm_num
  · rename_i h
    push_neg at h
    obtain ⟨ha, hb⟩ := h
    set ta := (pyWords a).dedup
    set tb := (pyWords b).dedup
    have hIa : (ta.filter (fun w => tb.contains w)).length ≤ ta.length :=
      List.length_filter_le _ _
    have hIb : (ta.filter (fun w => tb.contains w)).length ≤ tb.length := by
      refine List.Subperm.length_le (List.subperm_of_subset ?_ ?_)
      · exact (List.nodup_dedup _).filter _
      · intro x hx
        obtain ⟨hx1, hx2⟩ := List.mem_filter.mp hx
        exact List.mem_of_elem_eq_true hx2
    have hA : 0 < (ta.length : ℚ) := by
      have := List.length_pos.mpr ha
      exact_mod_cast this
    have hB : 0 < (tb.length : ℚ) := by
      have := List.length_pos.mpr hb
      exact_mod_cast this
    rw [div_le_iff (by linarith)]
    have hIa' : ((ta.filter (fun w => tb.contains w)).length : ℚ) ≤ ta.length := by
      exact_mod_cast hIa
    have hIb' : ((ta.filter (fun w => tb.contains w)).length : ℚ) ≤ tb.length := by
      exact_mod_cast hIb
    linarith

theorem isPrefixOf_self (l : PyStr) : l.isPrefixOf l = true := by
  induction l with
  | nil => rfl
  | cons a t ih => simp [List.isPrefixOf, ih]

theorem pyContains_self (l : PyStr) : pyContains l l = true := by
  rw [pyContains, List.any_eq_true]
  exact ⟨l, (List.mem_tails _ _).mpr (List.suffix_refl l), isPrefixOf_self l⟩

theorem candScore_le_exact (env : SearchEnv) (qc : PyStr) (c : ℕ × ℚ)
    (hub : env.fuzzyRatio qc (pyLower (env.products.getD c.1 [])) ≤ 100) :
    candScore env qc c ≤ 0.4 * (1 - c.2) + 0.6 := by
  unfold candScore
  have h2 : env.fuzzyRatio qc (pyLower (env.products.getD c.1 [])) / 100 ≤ 1 := by
    rw [div_le_one (by norm_num : (0:ℚ) < 100)]
    exact hub
  have h3 : (if qc.isPrefixOf (pyLower (env.products.getD c.1 [])) then (1 : ℚ) else 0) ≤ 1 := by
    split <;> norm_num
  have h4 : (if pyContains (pyLower (env.products.getD c.1 [])) qc then (1 : ℚ) else 0) ≤ 1 := by
    split <;> norm_num
  linarith

theorem insertionSort_head_of_max (fs : List ℚ) (l : List ℕ) (j : ℕ) (hj : j ∈ l)
    (hmax : ∀ i ∈ l, i ≠ j → fs.getD i 0 < fs.getD j 0) :
    (List.insertionSort (fun a b => fs.getD a 0 ≥ fs.getD b 0) l).head? = some j := by
  haveI hTot : IsTotal ℕ (fun a b => fs.getD a 0 ≥ fs.getD b 0) :=
    ⟨fun a b => le_total (fs.getD b 0) (fs.getD a 0)⟩
  haveI hTrans : IsTrans ℕ (fun a b => fs.getD a 0 ≥ fs.getD b 0) :=
    ⟨fun a b c hab hbc => le_trans hbc hab⟩
  have hperm := List.perm_insertionSort (fun a b => fs.getD a 0 ≥ fs.getD b 0) l
  have hsorted := List.sorted_insertionSort (fun a b => fs.getD a 0 ≥ fs.getD b 0) l
  cases hs : List.insertionSort (fun a b => fs.getD a 0 ≥ fs.getD b 0) l with
  | nil =>
    exfalso
    have hmem : j ∈ List.insertionSort (fun a b => fs.getD a 0 ≥ fs.getD b 0) l :=
      hperm.mem_iff.mpr hj
    rw [hs] at hmem
    exact List.not_mem_nil j hmem
  | cons h t =>
    have hh : h ∈ l := by
      have hmem : h ∈ List.insertionSort (fun a b => fs.getD a 0 ≥ fs.getD b 0) l := by
        rw [hs]
        exact List.mem_cons_self _ _
      exact hperm.mem_iff.mp hmem
    by_cases hhj : h = j
    · rw [hhj]
      rfl
    · exfalso
      have h1 : fs.getD h 0 < fs.getD j 0 := hmax h hh hhj
      have hj2 : j ∈ h :: t := by
        rw [← hs]
        exact hperm.mem_iff.mpr hj
      rcases List.mem_cons.mp hj2 with h2 | h2
      · exact hhj h2.symm
      · rw [hs] at hsorted
        have h3 := (List.sorted_cons.mp hsorted).1 j h2
        have h4 : fs.getD h 0 ≥ fs.getD j 0 := h3
        linarith

theorem head?_take {α : Type} (l : List α) (k : ℕ) (hk : 1 ≤ k) :
    (l.take k).head? = l.head? := by
  cases l with
  | nil => rw [List.take_nil]
  | cons a t =>
    cases k with
    | zero => omega
    | succ n => rfl

/-- C5 (amended): if the lowercased name of the candidate at position `pos` of
the pool (catalog index `i`, distance `d`) equals the nonempty normalized
query, then under the modelled fuzzy scorer its fuzzy score is 1.0, its
startswith boost and substring boost are both 1.0, and its final score equals
0.4·(1 − d) + 0.6; if moreover its ai score is nonnegative (d ≤ 1), every
other candidate is strictly farther, and top_k ≥ 1, it is the top result. -/
theorem exact_match_top_result (env : SearchEnv) (query : PyStr) (top_k : ℕ)
    (i : ℕ) (d : ℚ) (pos : ℕ)
    (hfz : env.fuzzyRatio = tokenSetRatio)
    (hqne : preprocess_query query ≠ [])
    (hpos : (candidatesOf env query top_k).get? pos = some (i, d))
    (hname : pyLower (env.products.getD i []) = preprocess_query query)
    (hd : d ≤ 1)
    (hmax : ∀ pos' c', (candidatesOf env query top_k).get? pos' = some c' →
      pos' ≠ pos → d < c'.2)
    (hk : 1 ≤ top_k) :
    env.fuzzyRatio (preprocess_query query) (pyLower (env.products.getD i [])) / 100 = 1
      ∧ (preprocess_query query).isPrefixOf (pyLower (env.products.getD i [])) = true
      ∧ pyContains (pyLower (env.products.getD i [])) (preprocess_query query) = true
      ∧ (finalScores env query top_k).getD pos 0 = 0.4 * (1 - d) + 0.6
      ∧ (search_products env query top_k).head? =
          some (env.products.getD i [], 0.4 * (1 - d) + 0.6) := by
  have hposlt : pos < (candidatesOf env query top_k).length := by
    rcases List.get?_eq_some.mp hpos with ⟨h, _⟩
    exact h
  have hget : (candidatesOf env query top_k).get ⟨pos, hposlt⟩ = (i, d) := by
    have he := List.get?_eq_get hposlt
    rw [he] at hpos
    exact Option.some.inj hpos
  have hwords : pyWords (preprocess_query query) ≠ [] := by
    intro hw
    apply hqne
    have h2 : (pyWords (pyLower query)).filter (fun word => !stop_words.contains word) = [] := by
      rw [← preprocess_words query]
      exact hw
    show joinWords ((pyWords (pyLower query)).filter (fun word => !stop_words.contains word)) = []
    rw [h2]
    rfl
  have hts : tokenSetRatio (preprocess_query query) (preprocess_query query) = 100 :=
    tokenSetRatio_self _ hwords
  have hfz1 : env.fuzzyRatio (preprocess_query query) (pyLower (env.products.getD i [])) / 100
      = 1 := by
    rw [hname, hfz, hts]
    norm_num
  have hpre : (preprocess_query query).isPrefixOf (pyLower (env.products.getD i [])) = true := by
    rw [hname]
    exact isPrefixOf_self _
  have hsub : pyContains (pyLower (env.products.getD i [])) (preprocess_query query) = true := by
    rw [hname]
    exact pyContains_self _
  have hcs : candScore env (preprocess_query query) (i, d) = 0.4 * (1 - d) + 0.6 := by
    simp only [candScore]
    rw [hfz1, hpre, hsub]
    norm_num
    ring
  have hscorepos : (finalScores env query top_k).getD pos 0 = 0.4 * (1 - d) + 0.6 := by
    rw [finalScores_getD env query top_k pos hposlt, hget, hcs]
  refine ⟨hfz1, hpre, hsub, hscorepos, ?_⟩
  have hflen : (finalScores env query top_k).length = (candidatesOf env query top_k).length :=
    finalScores_length env query top_k
  have hposf : pos < (finalScores env query top_k).length := by
    rw [hflen]
    exact hposlt
  have hmem : pos ∈ (List.range (finalScores env query top_k).length).filter
      (fun j => decide ((finalScores env query top_k).getD j 0 > 0.1)) := by
    rw [List.mem_filter]
    refine ⟨List.mem_range.mpr hposf, ?_⟩
    simp only [decide_eq_true_eq]
    rw [hscorepos]
    linarith
  have hmax' : ∀ i' ∈ (List.range (finalScores env query top_k).length).filter
      (fun j => decide ((finalScores env query top_k).getD j 0 > 0.1)),
      i' ≠ pos →
      (finalScores env query top_k).getD i' 0 < (finalScores env query top_k).getD pos 0 := by
    intro i' hi' hne
    have hi'r := (List.mem_filter.mp hi').1
    have hi'len : i' < (finalScores env query top_k).length := List.mem_range.mp hi'r
    have hi'c : i' < (candidatesOf env query top_k).length := by
      rw [← hflen]
      exact hi'len
    have hd' : d < ((candidatesOf env query top_k).get ⟨i', hi'c⟩).2 :=
      hmax i' ((candidatesOf env query top_k).get ⟨i', hi'c⟩)
        (by rw [List.get?_eq_get hi'c]) hne
    have hub : env.fuzzyRatio (preprocess_query query)
        (pyLower (env.products.getD ((candidatesOf env query top_k).get ⟨i', hi'c⟩).1 [])) ≤ 100 := by
      rw [hfz]
      exact tokenSetRatio_le_100 _ _
    have hle := candScore_le_exact env (preprocess_query query)
      ((candidatesOf env query top_k).get ⟨i', hi'c⟩) hub
    rw [finalScores_getD env query top_k i' hi'c, hscorepos]
    calc candScore env (preprocess_query query) ((candidatesOf env query top_k).get ⟨i', hi'c⟩)
        ≤ 0.4 * (1 - ((candidatesOf env query top_k).get ⟨i', hi'c⟩).2) + 0.6 := hle
    _ < 0.4 * (1 - d) + 0.6 := by linarith
  have hidx : ((candidatesOf env query top_k).map Prod.fst).getD pos 0 = i := by
    rw [List.getD_eq_get?, List.get?_map, List.get?_eq_get hposlt, hget]
    rfl
  simp only [search_products]
  rw [List.head?_map, head?_take _ top_k hk,
    insertionSort_head_of_max (finalScores env query top_k) _ pos hmem hmax',
    Option.map_some', hidx, hscorepos]

/-- The counterexample environment for C5: catalog ["green tea",
"green tea 250g"], the modelled fuzzy scorer, and an index oracle that puts
item 1 ("green tea 250g") at distance 0 and item 0 ("green tea") at
distance 1. -/
def envC5 : SearchEnv :=
  ⟨["green tea".toList, "green tea 250g".toList], tokenSetRatio,
    fun _ k => [((1 : ℕ), (0 : ℚ)), ((0 : ℕ), (1 : ℚ))].take k⟩

theorem envC5_finalScores :
    finalScores envC5 ("green tea".toList) 10 = [23/25, 3/5] := by
  rw [finalScores_eq_map]
  have hc : candidatesOf envC5 ("green tea".toList) 10 = [(1, 0), (0, 1)] := rfl
  have hq : preprocess_query ("green tea".toList) = "green tea".toList := by decide
  rw [hc, hq]
  simp only [List.map_cons, List.map_nil]
  have h1 : candScore envC5 ("green tea".toList) (1, 0) = 23/25 := by
    have hn1 : pyLower (envC5.products.getD 1 []) = "green tea 250g".toList := by decide
    have hts : tokenSetRatio ("green tea".toList) ("green tea 250g".toList) = 80 := by
      rw [tokenSetRatio_eval ("green tea".toList) ("green tea 250g".toList)
        ["green".toList, "tea".toList] ["green".toList, "tea".toList, "250g".toList]
        ["green".toList, "tea".toList] (by decide) (by decide) (by decide) (by decide)]
      norm_num
    have hpre : ("green tea".toList).isPrefixOf ("green tea 250g".toList) = true := by decide
    have hsub : pyContains ("green tea 250g".toList) ("green tea".toList) = true := by decide
    simp only [candScore, hn1, hpre, hsub, if_true]
    rw [show envC5.fuzzyRatio = tokenSetRatio from rfl, hts]
    norm_num
  have h0 : candScore envC5 ("green tea".toList) (0, 1) = 3/5 := by
    have hn0 : pyLower (envC5.products.getD 0 []) = "green tea".toList := by decide
    have hts : tokenSetRatio ("green tea".toList) ("green tea".toList) = 100 := by
      rw [tokenSetRatio_eval ("green tea".toList) ("green tea".toList)
        ["green".toList, "tea".toList] ["green".toList, "tea".toList]
        ["green".toList, "tea".toList] (by decide) (by decide) (by decide) (by decide)]
      norm_num
    have hpre : ("green tea".toList).isPrefixOf ("green tea".toList) = true := by decide
    have hsub : pyContains ("green tea".toList) ("green tea".toList) = true := by decide
    simp only [candScore, hn0, hpre, hsub, if_true]
    rw [show envC5.fuzzyRatio = tokenSetRatio from rfl, hts]
    norm_num
  rw [h1, h0]

theorem envC5_search :
    search_products envC5 ("green tea".toList) 10 =
      [("green tea 250g".toList, 23/25), ("green tea".toList, 3/5)] := by
  have hc : candidatesOf envC5 ("green tea".toList) 10 = [(1, 0), (0, 1)] := rfl
  simp only [search_products, hc, envC5_finalScores]
  norm_num [envC5, List.range_succ, List.filter, List.insertionSort, List.orderedInsert,
    List.getD, List.get?]

/-- C5 as stated is false on the code: item 0 "green tea" exactly matches the
normalized query "green tea" and has ai score 1 − 1 = 0 ≥ 0, yet the top
result is item 1 "green tea 250g", whose distance-0 embedding outweighs the
exact match's boosts. -/
theorem exact_match_not_top_cex :
    pyLower (envC5.products.getD 0 []) = preprocess_query ("green tea".toList)
      ∧ candidatesOf envC5 ("green tea".toList) 10 = [(1, 0), (0, 1)]
      ∧ (0 : ℚ) ≤ 1 - 1
      ∧ (search_products envC5 ("green tea".toList) 10).head?.map Prod.fst
          = some ("green tea 250g".toList)
      ∧ ("green tea 250g".toList : PyStr) ≠ ("green tea".toList : PyStr) := by
  refine ⟨by decide, rfl, by norm_num, ?_, by decide⟩
  rw [envC5_search]
  rfl

/-- The witness environment for the amended C5: the exact-match item is the
unique nearest neighbor. -/
def envC5w : SearchEnv :=
  ⟨["green tea".toList], tokenSetRatio, fun _ k => [((0 : ℕ), (0 : ℚ))].take k⟩

/-- Closed instance of the amended C5: with the exact-match item as unique
nearest neighbor (distance 0), it is returned first with final score
0.4·(1 − 0) + 0.6 = 1. -/
theorem exact_match_top_result_witness :
    (search_products envC5w ("green tea".toList) 10).head? =
      some (envC5w.products.getD 0 [], 0.4 * (1 - (0 : ℚ)) + 0.6) := by
  have h := exact_match_top_result envC5w ("green tea".toList) 10 0 0 0
    rfl
    (by decide)
    rfl
    (by decide)
    (by norm_num)
    (fun pos' c' hp hne => by
      rw [show candidatesOf envC5w ("green tea".toList) 10 = [((0 : ℕ), (0 : ℚ))] from rfl] at hp
      cases pos' with
      | zero => exact absurd rfl hne
      | succ n =>
        rw [List.get?_cons_succ, List.get?_nil] at hp
        exact Option.noConfusion hp)
    (by norm_num)
  exact h.2.2.2.2
